import Mathlib

/-!
Verification of the cross-document combination sampling engine of
`yourbench/utils/dataset_engine.py`.

The Python source is shallowly embedded: pure helpers become Lean
functions, the seeded `random.Random` stream becomes an explicit state
(`Rng`) threaded through every draw, machine integers become `Nat`/`Int`
(Python ints are unbounded, so no overflow modelling is needed), and
fallible code returns `Except String`.
-/

/-- Explicit model of Python's `random.Random` stream: `f` is the raw
stream of draws (a deterministic function of the seed in CPython) and
`idx` the number of draws consumed so far.  `randrange (0, n)` is
modelled as `f idx % n`; it is only ever invoked with `0 < n` in the
embedded code. -/
structure Rng where
  f : Nat → Nat
  idx : Nat

/-- One raw draw. -/
def Rng.next (r : Rng) : Nat × Rng :=
  (r.f r.idx, ⟨r.f, r.idx + 1⟩)

/-- Models `rng.randrange(0, n)`: a value in `[0, n)` (for `0 < n`). -/
def Rng.randrange (r : Rng) (n : Nat) : Nat × Rng :=
  (r.f r.idx % n, ⟨r.f, r.idx + 1⟩)

/-! ## `_unrank_comb` (dataset_engine.py lines 316-366)

The Python body is

```
if not 0 <= k <= n: raise ValueError(...)
max_rank = math.comb(n, k)
if not 0 <= rank < max_rank: raise ValueError(...)
combo = []
for i in range(k, 0, -1):
    lo, hi = i - 1, n - 1
    while lo < hi:
        mid = (lo + hi + 1) // 2
        if math.comb(mid, i) <= rank: lo = mid
        else: hi = mid - 1
    combo.append(lo)
    rank -= math.comb(lo, i)
    n = lo
combo.reverse()
return combo
```

The `while` loop is embedded with explicit fuel `hi - lo`; the gap
`hi - lo` shrinks by at least one per iteration, so this fuel makes the
embedding agree with the unbounded loop while keeping the definition
structurally recursive (hence executable by `rfl`/`decide`). -/

/-- The binary-search `while` loop of `_unrank_comb`, with fuel. -/
def bsearchFuel (i rank : Nat) : Nat → Nat → Nat → Nat
  | 0, lo, _hi => lo
  | fuel + 1, lo, hi =>
    if lo < hi then
      let mid := (lo + hi + 1) / 2
      if Nat.choose mid i ≤ rank then bsearchFuel i rank fuel mid hi
      else bsearchFuel i rank fuel lo (mid - 1)
    else lo

/-- `while lo < hi: ...` of `_unrank_comb`: largest `c ∈ [lo, hi]` with
`C(c, i) ≤ rank`, provided `C(lo, i) ≤ rank`. -/
def bsearch (i rank lo hi : Nat) : Nat :=
  bsearchFuel i rank (hi - lo) lo hi

/-- The `for i in range(k, 0, -1)` loop of `_unrank_comb`; produces the
combination with the largest element first (the Python code reverses it
at the end).  The second argument is the mutated `n`. -/
def unrankAux : Nat → Nat → Nat → List Nat
  | 0, _, _ => []
  | i + 1, n, rank =>
    let c := bsearch (i + 1) rank i (n - 1)
    c :: unrankAux i c (rank - Nat.choose c (i + 1))

/-- `_unrank_comb(n, k, rank)`: the `rank`-th `k`-combination of
`[0, n)` in colexicographic order, or a `ValueError`.  (The Python
checks `0 ≤ k` and `0 ≤ rank` are vacuous over `Nat`.) -/
def _unrank_comb (n k rank : Nat) : Except String (List Nat) :=
  if k ≤ n then
    if rank < Nat.choose n k then
      .ok (unrankAux k n rank).reverse
    else .error "rank out of range"
  else .error "require 0 <= k <= n"

/-- Colexicographic weight of a strictly decreasing list
`[c_k, c_(k-1), ..., c_1]`: `Σ C(c_i, i)`.  This is the inverse of
`_unrank_comb` and is used only in the correctness proofs. -/
def colexWeight : List Nat → Nat
  | [] => 0
  | c :: rest => Nat.choose c (rest.length + 1) + colexWeight rest

/-- Colexicographic strict order on strictly increasing combination
lists: compare the largest elements first. -/
def colexLt (a b : List Nat) : Prop :=
  List.Lex (· < ·) a.reverse b.reverse

/-! ## `_floyd_sample_indices` (lines 369-380)

```
if sample_size > total: raise ValueError("sample_size cannot exceed total")
chosen = set()
for j in range(total - sample_size, total):
    t = rng.randrange(0, j + 1)
    chosen.add(t if t not in chosen else j)
return chosen
```

The Python `set` is modelled as a duplicate-free list in insertion
order (CPython's iteration order over a set of small ints is
implementation-defined; the spec states callers must not depend on it). -/

/-- The `for j in range(total - sample_size, total)` loop of
`_floyd_sample_indices`; `steps` iterations starting at `j`. -/
def floydLoop : Rng → List Nat → Nat → Nat → List Nat × Rng
  | rng, chosen, _, 0 => (chosen, rng)
  | rng, chosen, j, steps + 1 =>
    let (t, rng') := rng.randrange (j + 1)
    let chosen' := if t ∈ chosen then chosen ++ [j] else chosen ++ [t]
    floydLoop rng' chosen' (j + 1) steps

/-- `_floyd_sample_indices(total, sample_size, rng)`. -/
def _floyd_sample_indices (total sample_size : Nat) (rng : Rng) :
    Except String (List Nat × Rng) :=
  if sample_size > total then .error "sample_size cannot exceed total"
  else .ok (floydLoop rng [] (total - sample_size) sample_size)

/-! ## `_sample_exact_combinations` (lines 383-407) -/

/-- The `for r in ranks` loop of `_sample_exact_combinations`: unrank
each drawn rank and map the resulting indices back to objects
(`objects[i]`; the index is provably in range, so out-of-range access is
modelled by a default). -/
def buildCombos [Inhabited α] (objects : List α) (n k : Nat) :
    List Nat → Except String (List (List α))
  | [] => .ok []
  | r :: rs => do
    let idxs ← _unrank_comb n k r
    let rest ← buildCombos objects n k rs
    pure ((idxs.map fun i => objects.getD i default) :: rest)

/-- `_sample_exact_combinations(objects, k, N, rng)`:

```
n = len(objects)
if not 0 <= k <= n: raise ValueError("require 0 ≤ k ≤ n")
total = math.comb(n, k)
if N > total: raise ValueError("cannot request more combinations than exist")
ranks = _floyd_sample_indices(total, N, rng=rng)
combos = []
for r in ranks:
    idxs = _unrank_comb(n, k, r)
    combos.append([objects[i] for i in idxs])
return combos
``` -/
def _sample_exact_combinations [Inhabited α] (objects : List α) (k N : Nat)
    (rng : Rng) : Except String (List (List α) × Rng) :=
  let n := objects.length
  if k ≤ n then
    let total := Nat.choose n k
    if N > total then .error "cannot request more combinations than exist"
    else
      match _floyd_sample_indices total N rng with
      | .error e => .error e
      | .ok (ranks, rng') =>
        match buildCombos objects n k ranks with
        | .error e => .error e
        | .ok combos => .ok (combos, rng')
  else .error "require 0 <= k <= n"

/-! ## Data model for `create_cross_document_dataset` (lines 410-629) -/

/-- One entry of a row's `multihop_chunks` list.  `isDict` models
`isinstance(chunk, dict)`; `hasChunkIds`/`hasChunksText` model key
presence; the fields may hold either a list or a scalar string, since
the assembly code branches on `isinstance(chunk_ids, list)`. -/
structure MHChunk where
  isDict : Bool
  hasChunkIds : Bool
  hasChunksText : Bool
  chunk_ids : List String ⊕ String
  chunks_text : List String ⊕ String
deriving DecidableEq

instance : Inhabited MHChunk := ⟨⟨true, true, true, Sum.inl [], Sum.inl []⟩⟩

/-- One input dataset row.  `none` fields model absent keys; a
`multihop_chunks` value that is absent or not a list is modelled as
`none` (the code treats both as invalid via the `isinstance` check). -/
structure Row where
  document_id : Option String
  document_summary : Option String
  multihop_chunks : Option (List MHChunk)

/-- The input `Dataset`: its rows plus whether the `multihop_chunks`
column exists (`"multihop_chunks" in dataset.column_names`). -/
structure PyDataset where
  hasMultihopColumn : Bool
  rows : List Row

/-- The stage configuration after the `int(...)` coercions at the top of
`create_cross_document_dataset`.  `num_docs_per_combination` keeps its
list form so the length-2 shape check can fail; the
`all(isinstance(x, int))` check cannot fail in this typed model. -/
structure StageCfg where
  max_combinations : Int
  chunks_per_document : Int
  num_docs_per_combination : List Int
  random_seed : Int

/-- A document surviving ingestion filtering (the dicts appended to
`docs`). -/
structure Doc where
  document_id : String
  original_index : Nat
  document_summary : String
  multihop_chunks : List MHChunk
deriving DecidableEq

instance : Inhabited Doc := ⟨⟨"", 0, "", []⟩⟩

/-- Models Python's Unicode-aware `str.isalnum` on the characters this
development evaluates it at: exact on all of ASCII and on the
Greek-and-Coptic block (U+0370..U+03FF); Python's `isalnum` is true for
every Unicode letter or digit, e.g. for 'α'. -/
def pyIsAlnum (c : Char) : Bool :=
  (48 ≤ c.toNat && c.toNat ≤ 57) ||
  (65 ≤ c.toNat && c.toNat ≤ 90) ||
  (97 ≤ c.toNat && c.toNat ≤ 122) ||
  (0x370 ≤ c.toNat && c.toNat ≤ 0x3FF)

/-- `"".join(c for c in str(doc_id) if c.isalnum() or c in "_-")`. -/
def sanitizeId (s : String) : String :=
  String.mk (s.data.filter fun c => pyIsAlnum c || c = '_' || c = '-')

/-- A chunk passing the validity filter:
`isinstance(chunk, dict) and all(key in chunk for key in ("chunk_ids", "chunks_text"))`. -/
def validChunk (c : MHChunk) : Bool :=
  c.isDict && c.hasChunkIds && c.hasChunksText

/-- The body of the document-extraction loop for one row at index `idx`:
returns the `docs` entry, or `none` when the row is filtered out. -/
def extractDoc (idx : Nat) (r : Row) : Option Doc :=
  match r.multihop_chunks with
  | none => none
  | some mhcs =>
    if mhcs.isEmpty then none
    else
      let valid := mhcs.filter validChunk
      if valid.isEmpty then none
      else
        let doc_id := r.document_id.getD s!"doc_{idx}"
        let clean := sanitizeId doc_id
        let clean := if clean = "" then s!"doc_{idx}" else clean
        some ⟨clean, idx, r.document_summary.getD "", valid⟩

/-- `for idx, row in enumerate(dataset): ...` building `docs`. -/
def extractDocsAux : Nat → List Row → List Doc
  | _, [] => []
  | idx, r :: rs =>
    match extractDoc idx r with
    | none => extractDocsAux (idx + 1) rs
    | some d => d :: extractDocsAux (idx + 1) rs

/-- The list `docs` of valid documents. -/
def extractDocs (rows : List Row) : List Doc :=
  extractDocsAux 0 rows

/-- Models `rng.choice(seq)` (one uniform draw; only invoked on
non-empty lists). -/
def Rng.choice (r : Rng) (l : List MHChunk) : MHChunk × Rng :=
  (l.getD (r.f r.idx % l.length) default, ⟨r.f, r.idx + 1⟩)

/-- Models `rng.sample(population, m)`: `m` elements drawn without
replacement (only invoked with `m ≤ len(population)`).  CPython's
internal algorithm differs, but its contract — `m` distinct positions,
consuming the rng — is what the surrounding code relies on. -/
def Rng.sample (r : Rng) (l : List MHChunk) : Nat → List MHChunk × Rng
  | 0 => ([], r)
  | m + 1 =>
    let i := r.f r.idx % l.length
    let rest := Rng.sample ⟨r.f, r.idx + 1⟩ (l.eraseIdx i) m
    (l.getD i default :: rest.1, rest.2)

/-- The `for doc in doc_group` chunk-sampling loop: builds
`sampled_chunks_from_group`. -/
def sampleFromGroup (cpd : Nat) : List Doc → Rng → List MHChunk × Rng
  | [], r => ([], r)
  | d :: ds, r =>
    if d.multihop_chunks.isEmpty then sampleFromGroup cpd ds r
    else
      let num := min cpd d.multihop_chunks.length
      let sampled :=
        if num = 1 then
          let cr := r.choice d.multihop_chunks
          ([cr.1], cr.2)
        else r.sample d.multihop_chunks num
      let rest := sampleFromGroup cpd ds sampled.2
      (sampled.1 ++ rest.1, rest.2)

/-- `chunk_ids if isinstance(chunk_ids, list) else [chunk_ids]` — the
extend/append branch when concatenating chunk fields. -/
def fieldList : List String ⊕ String → List String
  | Sum.inl l => l
  | Sum.inr s => [s]

/-- Lexicographic code-point comparison on character lists; structural
so that it evaluates by `rfl`. -/
def charListLe : List Char → List Char → Bool
  | [], _ => true
  | _ :: _, [] => false
  | a :: as, b :: bs =>
    if a.toNat < b.toNat then true
    else if b.toNat < a.toNat then false
    else charListLe as bs

/-- Python's `≤` on `str` (code-point lexicographic), used by `sorted`. -/
def strLe (a b : String) : Bool := charListLe a.data b.data

/-- Insert into a sorted list (helper for the `sorted(...)` model). -/
def insertLe (le : α → α → Bool) (x : α) : List α → List α
  | [] => [x]
  | y :: ys => if le x y then x :: y :: ys else y :: insertLe le x ys

/-- Models Python's `sorted(l)` for a total order `le` (insertion sort;
structural so that it evaluates by `rfl`). -/
def sortLe (le : α → α → Bool) : List α → List α
  | [] => []
  | x :: xs => insertLe le x (sortLe le xs)

/-- `cross_document_metadata` of an emitted record. -/
structure Metadata where
  source_documents : List String
  num_source_docs : Nat
  chunks_per_doc : Nat
  total_chunks_sampled : Nat
  source_indices : List Nat
deriving DecidableEq

/-- The combined multihop chunk of an emitted record. -/
structure CombinedChunk where
  chunk_ids : List String
  chunks_text : List String
deriving DecidableEq

/-- One emitted cross-document record (`cross_rows` entry).
`generation_method` is the constant `"exact_uniform_sampling"` and is
omitted; `chunks` is always the empty placeholder list. -/
structure CrossRow where
  document_id : String
  document_summary : String
  chunks : List CombinedChunk
  multihop_chunks : List CombinedChunk
  cross_document_metadata : Metadata
deriving DecidableEq

/-- Record assembly for one accepted document group (combined chunk,
combined summary, id, metadata). -/
def mkCrossRow (cpd : Nat) (grp : List Doc) (sampled : List MHChunk) : CrossRow :=
  let combined_ids := (sampled.map fun c => fieldList c.chunk_ids).flatten
  let combined_texts := (sampled.map fun c => fieldList c.chunks_text).flatten
  let doc_summaries :=
    (grp.map (·.document_summary)).filter fun s => s != "" && s.trim != ""
  let combined_summary :=
    if doc_summaries.isEmpty then ""
    else
      "Here are the summaries from the various documents involved in the chunking:"
        ++ "\n\n" ++ String.intercalate "\n" (doc_summaries.map fun s => "- " ++ s)
  let doc_ids_sorted := sortLe strLe (grp.map (·.document_id))
  let doc_ids_str := String.intercalate "_" doc_ids_sorted
  let g := grp.length
  let cross_doc_id := s!"cross_{g}docs_{doc_ids_str}_chunks{cpd}"
  { document_id := cross_doc_id
    document_summary := combined_summary
    chunks := []
    multihop_chunks := [⟨combined_ids, combined_texts⟩]
    cross_document_metadata :=
      { source_documents := doc_ids_sorted
        num_source_docs := g
        chunks_per_doc := cpd
        total_chunks_sampled := sampled.length
        source_indices := sortLe Nat.ble (grp.map (·.original_index)) } }

/-- `for doc_group in doc_combinations: ...` — sample chunks, discard
the group when fewer chunks than documents were sampled, otherwise
append the assembled record. -/
def processCombos (cpd : Nat) : List (List Doc) → List CrossRow → Rng → List CrossRow × Rng
  | [], acc, rng => (acc, rng)
  | grp :: rest, acc, rng =>
    let sr := sampleFromGroup cpd grp rng
    if sr.1.length < grp.length then processCombos cpd rest acc sr.2
    else processCombos cpd rest (acc ++ [mkCrossRow cpd grp sr.1]) sr.2

/-- `total_possible_combinations`: `Σ C(nDocs, g)` for
`g in range(min_docs, min(max_docs + 1, nDocs + 1))`. -/
def totalPossible (nDocs : Nat) (min_docs max_docs : Int) : Nat :=
  ((List.range' min_docs.toNat
      (min (max_docs.toNat + 1) (nDocs + 1) - min_docs.toNat)).map
    (Nat.choose nDocs)).sum

/-- `actual_for_this_size`, factoring the Python lines

```
proportion = combinations_for_this_size / total_possible_combinations
target_for_this_size = max(1, int(proportion * actual_max_combinations))
actual_for_this_size = min(target_for_this_size, combinations_for_this_size,
                           remaining_combinations)
```

into one definition (`remaining = actualMax - accLen`).  The proportion
product is computed in CPython with binary floats and truncated by
`int(...)`; since every quantity is nonnegative this is modelled by the
exact integer floor `(combos * actualMax) / totalPoss` (exact whenever
the float products round exactly, as in all instances evaluated
below). -/
def takeFor (docs : List Doc) (totalPoss : Nat) (actualMax : Int) (g : Nat)
    (accLen : Nat) : Int :=
  min (min (max 1 ((Nat.choose docs.length g * actualMax) / totalPoss))
    (Nat.choose docs.length g)) (actualMax - accLen)

/-- The `for num_docs_to_combine in range(...)` loop of
`create_cross_document_dataset`. -/
def sizesLoop (docs : List Doc) (cpd : Nat) (totalPoss : Nat) (actualMax : Int) :
    List Nat → List CrossRow → Rng → List CrossRow × Rng
  | [], acc, rng => (acc, rng)
  | g :: rest, acc, rng =>
    let combosForSize := Nat.choose docs.length g
    if combosForSize = 0 then sizesLoop docs cpd totalPoss actualMax rest acc rng
    else
      let remaining : Int := actualMax - acc.length
      if remaining ≤ 0 then (acc, rng)
      else
        let take : Int := takeFor docs totalPoss actualMax g acc.length
        if take ≤ 0 then sizesLoop docs cpd totalPoss actualMax rest acc rng
        else
          match _sample_exact_combinations docs g take.toNat rng with
          | .error _ => sizesLoop docs cpd totalPoss actualMax rest acc rng
          | .ok res =>
            let pr := processCombos cpd res.1 acc res.2
            sizesLoop docs cpd totalPoss actualMax rest pr.1 pr.2

/-- Body of `create_cross_document_dataset` once the
`num_docs_per_combination` shape check has bound `min_docs`/`max_docs`
(split out of the wrapper below so proofs can address it directly). -/
def createChecked (ds : PyDataset) (cfg : StageCfg) (randomFn : Int → Nat → Nat)
    (min_docs max_docs : Int) : Except String (List CrossRow) :=
  if min_docs < 2 then
    .error "min_docs must be at least 2 for cross-document combinations"
  else if max_docs < min_docs then .error "max_docs must be >= min_docs"
  else if cfg.chunks_per_document < 1 then
    .error "chunks_per_document must be at least 1"
  else if !ds.hasMultihopColumn then .ok []
  else
    let docs := extractDocs ds.rows
    if (docs.length : Int) < min_docs then .ok []
    else
      let rng : Rng := ⟨randomFn cfg.random_seed, 0⟩
      let mi := min_docs.toNat
      let upper := min (max_docs.toNat + 1) (docs.length + 1)
      let sizes := List.range' mi (upper - mi)
      let totalPoss := totalPossible docs.length min_docs max_docs
      let actualMax : Int := min cfg.max_combinations (totalPoss : Int)
      let cpd := cfg.chunks_per_document.toNat
      .ok (sizesLoop docs cpd totalPoss actualMax sizes [] rng).1

/-- `create_cross_document_dataset(dataset, stage_cfg)`.  `randomFn`
models the CPython PRNG: the raw draw stream as a function of the seed
(`random.Random(random_seed)`); configuration errors become `.error`. -/
def create_cross_document_dataset (ds : PyDataset) (cfg : StageCfg)
    (randomFn : Int → Nat → Nat) : Except String (List CrossRow) :=
  match cfg.num_docs_per_combination with
  | [min_docs, max_docs] => createChecked ds cfg randomFn min_docs max_docs
  | _ => .error "num_docs_per_combination must be a list of exactly 2 integers"

/-- A valid multihop chunk used by concrete witnesses below. -/
def fixtureChunk : MHChunk := ⟨true, true, true, Sum.inl ["c1"], Sum.inl ["t1"]⟩

/-- Concrete corpus rows for witnesses. -/
def rowA : Row := ⟨some "A", some "sumA", some [fixtureChunk]⟩

def rowB : Row := ⟨some "B", some "sumB", some [fixtureChunk]⟩

def rowC : Row := ⟨some "C", none, some [fixtureChunk]⟩

def dsAB : PyDataset := ⟨true, [rowA, rowB]⟩

def dsABC : PyDataset := ⟨true, [rowA, rowB, rowC]⟩

/-- The default stage configuration. -/
def cfgDefault : StageCfg := ⟨100, 1, [2, 5], 42⟩

/-- A configuration violating `max_combinations ≥ 0`. -/
def cfgNegMax : StageCfg := ⟨-1, 1, [2, 2], 0⟩

/-- The §8 scenario configuration: `min_docs = 2`, `max_docs = 3`,
`max_combinations = 10` (with the default `chunks_per_document = 1`). -/
def cfgScenario : StageCfg := ⟨10, 1, [2, 3], 42⟩

/-- A concrete PRNG stream model. -/
def zeroStream : Int → Nat → Nat := fun _ _ => 0

example : _unrank_comb 4 2 3 = .ok [0, 3] := rfl
example : _unrank_comb 3 2 0 = .ok [0, 1] := rfl
example : _unrank_comb 3 2 1 = .ok [0, 2] := rfl
example : _unrank_comb 3 2 2 = .ok [1, 2] := rfl
example : _unrank_comb 3 3 0 = .ok [0, 1, 2] := rfl
example : sanitizeId "Doc #1/α" = "Doc1α" := by decide
example : (_floyd_sample_indices 3 3 ⟨fun _ => 0, 0⟩).map (·.1) = .ok [0, 1, 2] := rfl
example : sortLe strLe ["b", "a", "c"] = ["a", "b", "c"] := by decide

/-! ## Correctness of `_unrank_comb` -/

/-- Specification of the binary-search loop: with enough fuel it returns
the largest `c ∈ [lo, hi]` with `C(c, i) ≤ rank`. -/
theorem bsearchFuel_spec (i rank : Nat) :
    ∀ fuel lo hi, hi - lo ≤ fuel → lo ≤ hi → Nat.choose lo i ≤ rank →
      lo ≤ bsearchFuel i rank fuel lo hi ∧
      bsearchFuel i rank fuel lo hi ≤ hi ∧
      Nat.choose (bsearchFuel i rank fuel lo hi) i ≤ rank ∧
      (bsearchFuel i rank fuel lo hi < hi →
        rank < Nat.choose (bsearchFuel i rank fuel lo hi + 1) i)
  | 0, lo, hi, hfuel, hlohi, hlo => by
    have heq : lo = hi := by omega
    subst heq
    simpa [bsearchFuel] using hlo
  | fuel + 1, lo, hi, hfuel, hlohi, hlo => by
    by_cases h : lo < hi
    · simp only [bsearchFuel, if_pos h]
      have hmid1 : lo + 1 ≤ (lo + hi + 1) / 2 := by omega
      have hmid2 : (lo + hi + 1) / 2 ≤ hi := by omega
      by_cases hc : Nat.choose ((lo + hi + 1) / 2) i ≤ rank
      · simp only [if_pos hc]
        obtain ⟨h1, h2, h3, h4⟩ :=
          bsearchFuel_spec i rank fuel ((lo + hi + 1) / 2) hi (by omega) (by omega) hc
        exact ⟨by omega, h2, h3, h4⟩
      · simp only [if_neg hc]
        obtain ⟨h1, h2, h3, h4⟩ :=
          bsearchFuel_spec i rank fuel lo ((lo + hi + 1) / 2 - 1) (by omega) (by omega) hlo
        refine ⟨h1, by omega, h3, fun _ => ?_⟩
        by_cases hend : bsearchFuel i rank fuel lo ((lo + hi + 1) / 2 - 1) <
            (lo + hi + 1) / 2 - 1
        · exact h4 hend
        · have heq : bsearchFuel i rank fuel lo ((lo + hi + 1) / 2 - 1) =
              (lo + hi + 1) / 2 - 1 := by omega
          rw [heq]
          have heq2 : (lo + hi + 1) / 2 - 1 + 1 = (lo + hi + 1) / 2 := by omega
          rw [heq2]
          omega
    · have heq : lo = hi := by omega
      subst heq
      simpa [bsearchFuel] using hlo

/-- `bsearch` specification at its call sites (`fuel = hi - lo`). -/
theorem bsearch_spec (i rank lo hi : Nat) (hlohi : lo ≤ hi)
    (hlo : Nat.choose lo i ≤ rank) :
    lo ≤ bsearch i rank lo hi ∧ bsearch i rank lo hi ≤ hi ∧
      Nat.choose (bsearch i rank lo hi) i ≤ rank ∧
      (bsearch i rank lo hi < hi → rank < Nat.choose (bsearch i rank lo hi + 1) i) :=
  bsearchFuel_spec i rank (hi - lo) lo hi (Nat.le_refl _) hlohi hlo

/-- The value characterised by the binary-search postcondition is
unique, so `bsearch` returns exactly it. -/
theorem bsearch_eq (i rank lo hi c : Nat) (hlohi : lo ≤ hi)
    (hlo : Nat.choose lo i ≤ rank) (_hc1 : lo ≤ c) (hc2 : c ≤ hi)
    (hc3 : Nat.choose c i ≤ rank)
    (hc4 : c < hi → rank < Nat.choose (c + 1) i) :
    bsearch i rank lo hi = c := by
  obtain ⟨h1, h2, h3, h4⟩ := bsearch_spec i rank lo hi hlohi hlo
  rcases Nat.lt_trichotomy (bsearch i rank lo hi) c with h | h | h
  · have hb := h4 (by omega)
    have hm := Nat.choose_le_choose i (show bsearch i rank lo hi + 1 ≤ c from h)
    omega
  · exact h
  · have hb := hc4 (by omega)
    have hm := Nat.choose_le_choose i (show c + 1 ≤ bsearch i rank lo hi from h)
    omega

/-- Invariant of the unranking loop: given `rank < C(n, i)` it produces
a strictly decreasing list of `i` elements of `[0, n)` whose
colexicographic weight is exactly `rank`. -/
theorem unrankAux_spec : ∀ i n rank : Nat, rank < Nat.choose n i →
    (unrankAux i n rank).length = i ∧
    (unrankAux i n rank).Pairwise (· > ·) ∧
    (∀ x ∈ unrankAux i n rank, x < n) ∧
    colexWeight (unrankAux i n rank) = rank
  | 0, n, rank, h => by
    rw [Nat.choose_zero_right] at h
    simp [unrankAux, colexWeight]
    omega
  | i + 1, n, rank, h => by
    have hn : i + 1 ≤ n := by
      by_contra hn
      rw [Nat.choose_eq_zero_of_lt (by omega)] at h
      omega
    have hlo : Nat.choose i (i + 1) ≤ rank := by
      rw [Nat.choose_eq_zero_of_lt (by omega)]
      omega
    obtain ⟨h1, h2, h3, h4⟩ := bsearch_spec (i + 1) rank i (n - 1) (by omega) hlo
    have hrank' : rank - Nat.choose (bsearch (i + 1) rank i (n - 1)) (i + 1) <
        Nat.choose (bsearch (i + 1) rank i (n - 1)) i := by
      have hpascal := Nat.choose_succ_succ (bsearch (i + 1) rank i (n - 1)) i
      simp only [Nat.succ_eq_add_one] at hpascal
      by_cases hch : bsearch (i + 1) rank i (n - 1) < n - 1
      · have := h4 hch
        omega
      · have hcn : bsearch (i + 1) rank i (n - 1) + 1 = n := by omega
        rw [← hcn] at h
        omega
    obtain ⟨ih1, ih2, ih3, ih4⟩ :=
      unrankAux_spec i (bsearch (i + 1) rank i (n - 1))
        (rank - Nat.choose (bsearch (i + 1) rank i (n - 1)) (i + 1)) hrank'
    have hdef : unrankAux (i + 1) n rank =
        bsearch (i + 1) rank i (n - 1) ::
          unrankAux i (bsearch (i + 1) rank i (n - 1))
            (rank - Nat.choose (bsearch (i + 1) rank i (n - 1)) (i + 1)) := rfl
    rw [hdef]
    refine ⟨by simp [ih1], List.Pairwise.cons (fun x hx => ih3 x hx) ih2, ?_, ?_⟩
    · intro x hx
      rcases List.mem_cons.mp hx with hx | hx
      · omega
      · have := ih3 x hx
        omega
    · simp only [colexWeight, ih1, ih4]
      omega

/-- A strictly decreasing list of naturals all below `c` has at most
`c` elements. -/
theorem desc_length_le : ∀ (l : List Nat) (c : Nat), l.Pairwise (· > ·) →
    (∀ x ∈ l, x < c) → l.length ≤ c
  | [], c, _, _ => Nat.zero_le c
  | a :: l, c, hp, hb => by
    rw [List.pairwise_cons] at hp
    have ha : a < c := hb a (List.mem_cons_self a l)
    have := desc_length_le l a hp.2 fun x hx => hp.1 x hx
    simp only [List.length_cons]
    omega

/-- The colexicographic weight of a strictly decreasing `k`-element
list with entries below `n` is below `C(n, k)`. -/
theorem colexWeight_lt : ∀ (l : List Nat) (n : Nat), l.Pairwise (· > ·) →
    (∀ x ∈ l, x < n) → colexWeight l < Nat.choose n l.length
  | [], n, _, _ => by simp [colexWeight]
  | c :: l, n, hp, hb => by
    rw [List.pairwise_cons] at hp
    have ih := colexWeight_lt l c hp.2 fun x hx => hp.1 x hx
    have hcn : c < n := hb c (List.mem_cons_self c l)
    have hpascal := Nat.choose_succ_succ c l.length
    simp only [Nat.succ_eq_add_one] at hpascal
    have hmono := Nat.choose_le_choose (l.length + 1) (show c + 1 ≤ n from hcn)
    simp only [colexWeight, List.length_cons]
    omega

/-- Unranking inverts the colexicographic weight: every strictly
decreasing bounded list is recovered from its weight. -/
theorem unrankAux_weight_inv : ∀ (l : List Nat) (n : Nat), l.Pairwise (· > ·) →
    (∀ x ∈ l, x < n) → unrankAux l.length n (colexWeight l) = l
  | [], _, _, _ => rfl
  | c :: l, n, hp, hb => by
    rw [List.pairwise_cons] at hp
    have hlx : ∀ x ∈ l, x < c := fun x hx => hp.1 x hx
    have hW : colexWeight l < Nat.choose c l.length := colexWeight_lt l c hp.2 hlx
    have hcn : c < n := hb c (List.mem_cons_self c l)
    have hlen : l.length ≤ c := desc_length_le l c hp.2 hlx
    have hbs : bsearch (l.length + 1) (colexWeight (c :: l)) l.length (n - 1) = c := by
      apply bsearch_eq
      · omega
      · rw [Nat.choose_eq_zero_of_lt (by omega)]
        omega
      · exact hlen
      · omega
      · simp only [colexWeight]
        omega
      · intro _
        have hpascal := Nat.choose_succ_succ c l.length
        simp only [Nat.succ_eq_add_one] at hpascal
        simp only [colexWeight]
        omega
    have hdef : unrankAux (c :: l).length n (colexWeight (c :: l)) =
        bsearch (l.length + 1) (colexWeight (c :: l)) l.length (n - 1) ::
          unrankAux l.length (bsearch (l.length + 1) (colexWeight (c :: l)) l.length (n - 1))
            (colexWeight (c :: l) -
              Nat.choose (bsearch (l.length + 1) (colexWeight (c :: l)) l.length (n - 1))
                (l.length + 1)) := rfl
    rw [hdef, hbs]
    have harg : colexWeight (c :: l) - Nat.choose c (l.length + 1) = colexWeight l := by
      simp only [colexWeight]
      omega
    rw [harg, unrankAux_weight_inv l c hp.2 hlx]

/-- The colexicographic weight is strictly monotone along the
lexicographic order of equal-length strictly decreasing lists. -/
theorem colexWeight_lt_of_lex (d1 d2 : List Nat) (hlex : List.Lex (· < ·) d1 d2) :
    d1.Pairwise (· > ·) → d2.Pairwise (· > ·) → d1.length = d2.length →
    colexWeight d1 < colexWeight d2 := by
  induction hlex with
  | nil =>
    intro _ _ hlen
    simp at hlen
  | @cons a l1 l2 h ih =>
    intro hp1 hp2 hlen
    rw [List.pairwise_cons] at hp1 hp2
    have hlen' : l1.length = l2.length := by simpa using hlen
    have := ih hp1.2 hp2.2 hlen'
    simp only [colexWeight, hlen']
    omega
  | @rel a l1 b l2 hab =>
    intro hp1 hp2 hlen
    rw [List.pairwise_cons] at hp1 hp2
    have hW1 : colexWeight l1 < Nat.choose a l1.length :=
      colexWeight_lt l1 a hp1.2 fun x hx => hp1.1 x hx
    have hpascal := Nat.choose_succ_succ a l1.length
    simp only [Nat.succ_eq_add_one] at hpascal
    have hmono := Nat.choose_le_choose (l1.length + 1) (show a + 1 ≤ b from hab)
    have hlen' : l1.length = l2.length := by simpa using hlen
    simp only [colexWeight, ← hlen']
    omega

/-- Trichotomy of the lexicographic order on equal-length lists. -/
theorem lex_trichotomy : ∀ d1 d2 : List Nat, d1.length = d2.length →
    List.Lex (· < ·) d1 d2 ∨ d1 = d2 ∨ List.Lex (· < ·) d2 d1
  | [], [], _ => Or.inr (Or.inl rfl)
  | [], _ :: _, h => by simp at h
  | _ :: _, [], h => by simp at h
  | a :: l1, b :: l2, h => by
    rcases Nat.lt_trichotomy a b with hab | hab | hab
    · exact Or.inl (List.Lex.rel hab)
    · subst hab
      rcases lex_trichotomy l1 l2 (by simpa using h) with h' | h' | h'
      · exact Or.inl (List.Lex.cons h')
      · rw [h']
        exact Or.inr (Or.inl rfl)
      · exact Or.inr (Or.inr (List.Lex.cons h'))
    · exact Or.inr (Or.inr (List.Lex.rel hab))

/-- C1: for all `n ≥ 0` and `0 ≤ k ≤ n`, `rank ↦ _unrank_comb(n, k, rank)`
over `rank ∈ [0, C(n,k))` succeeds and returns strictly increasing
sequences with elements in `[0, n)`; it is injective and reaches every
such sequence (so every k-subset appears exactly once); and it is
strictly monotone from rank order to colexicographic order. -/
theorem C1_unrank_colex_enumeration (n k : Nat) (hk : k ≤ n) :
    (∀ r, r < Nat.choose n k → ∃ l, _unrank_comb n k r = .ok l ∧ l.length = k ∧
      l.Pairwise (· < ·) ∧ ∀ x ∈ l, x < n) ∧
    (∀ r1 r2, r1 < Nat.choose n k → r2 < Nat.choose n k →
      _unrank_comb n k r1 = _unrank_comb n k r2 → r1 = r2) ∧
    (∀ l : List Nat, l.Pairwise (· < ·) → l.length = k → (∀ x ∈ l, x < n) →
      ∃ r, r < Nat.choose n k ∧ _unrank_comb n k r = .ok l) ∧
    (∀ r1 r2 l1 l2, r1 < r2 → r2 < Nat.choose n k →
      _unrank_comb n k r1 = .ok l1 → _unrank_comb n k r2 = .ok l2 →
      colexLt l1 l2) := by
  refine ⟨?_, ?_, ?_, ?_⟩
  · intro r hr
    obtain ⟨h1, h2, h3, _⟩ := unrankAux_spec k n r hr
    refine ⟨(unrankAux k n r).reverse, ?_, ?_, ?_, ?_⟩
    · simp [_unrank_comb, hk, hr]
    · simp [h1]
    · rw [List.pairwise_reverse]
      exact h2
    · intro x hx
      exact h3 x (List.mem_reverse.mp hx)
  · intro r1 r2 h1 h2 heq
    simp only [_unrank_comb, if_pos hk, if_pos h1, if_pos h2, Except.ok.injEq] at heq
    have heq' : unrankAux k n r1 = unrankAux k n r2 :=
      List.reverse_injective heq
    obtain ⟨_, _, _, w1⟩ := unrankAux_spec k n r1 h1
    obtain ⟨_, _, _, w2⟩ := unrankAux_spec k n r2 h2
    rw [← w1, ← w2, heq']
  · intro l hl hlen hbound
    have hd : l.reverse.Pairwise (· > ·) := by
      rw [List.pairwise_reverse]
      exact hl
    have hdb : ∀ x ∈ l.reverse, x < n := fun x hx => hbound x (List.mem_reverse.mp hx)
    have hW := colexWeight_lt l.reverse n hd hdb
    rw [List.length_reverse, hlen] at hW
    refine ⟨colexWeight l.reverse, hW, ?_⟩
    have hinv := unrankAux_weight_inv l.reverse n hd hdb
    rw [List.length_reverse, hlen] at hinv
    simp only [_unrank_comb, if_pos hk, if_pos hW, hinv, List.reverse_reverse]
  · intro r1 r2 l1 l2 h12 h2 hok1 hok2
    have h1 : r1 < Nat.choose n k := Nat.lt_trans h12 h2
    simp only [_unrank_comb, if_pos hk, if_pos h1, if_pos h2, Except.ok.injEq] at hok1 hok2
    obtain ⟨len1, p1, b1, w1⟩ := unrankAux_spec k n r1 h1
    obtain ⟨len2, p2, b2, w2⟩ := unrankAux_spec k n r2 h2
    have hWlt : colexWeight (unrankAux k n r1) < colexWeight (unrankAux k n r2) := by
      rw [w1, w2]
      exact h12
    have hlex : List.Lex (· < ·) (unrankAux k n r1) (unrankAux k n r2) := by
      rcases lex_trichotomy (unrankAux k n r1) (unrankAux k n r2)
          (by rw [len1, len2]) with h | h | h
      · exact h
      · rw [h] at hWlt
        exact absurd hWlt (lt_irrefl _)
      · have := colexWeight_lt_of_lex _ _ h p2 p1 (by rw [len1, len2])
        omega
    unfold colexLt
    rw [← hok1, ← hok2, List.reverse_reverse, List.reverse_reverse]
    exact hlex

/-- Witness for C1 at `n = 4`, `k = 2`, `rank = 3`. -/
theorem C1_unrank_colex_enumeration_witness :
    (2 : Nat) ≤ 4 ∧ ∃ l, _unrank_comb 4 2 3 = .ok l ∧ l.length = 2 ∧
      l.Pairwise (· < ·) ∧ ∀ x ∈ l, x < 4 :=
  ⟨by decide, (C1_unrank_colex_enumeration 4 2 (by decide)).1 3 (by decide)⟩


/-! ## Correctness of `_floyd_sample_indices` -/

/-- Invariant of Floyd's loop: starting from a duplicate-free pool of
values below `j`, each iteration adds exactly one fresh value below the
current bound. -/
theorem floydLoop_spec : ∀ (steps : Nat) (rng : Rng) (chosen : List Nat) (j : Nat),
    chosen.Nodup → (∀ x ∈ chosen, x < j) →
    (floydLoop rng chosen j steps).1.length = chosen.length + steps ∧
    (floydLoop rng chosen j steps).1.Nodup ∧
    (∀ x ∈ (floydLoop rng chosen j steps).1, x < j + steps)
  | 0, rng, chosen, j, hnd, hb => ⟨rfl, hnd, hb⟩
  | steps + 1, rng, chosen, j, hnd, hb => by
    have ht : rng.f rng.idx % (j + 1) < j + 1 := Nat.mod_lt _ (Nat.succ_pos j)
    by_cases hmem : rng.f rng.idx % (j + 1) ∈ chosen
    · have hj : j ∉ chosen := fun h => absurd (hb j h) (lt_irrefl j)
      have hnd' : (chosen ++ [j]).Nodup := by
        rw [List.nodup_append]
        refine ⟨hnd, List.nodup_singleton j, ?_⟩
        intro a ha hmem1
        simp at hmem1
        subst hmem1
        exact hj ha
      have hb' : ∀ x ∈ chosen ++ [j], x < j + 1 := by
        intro x hx
        rcases List.mem_append.mp hx with hx | hx
        · have := hb x hx
          omega
        · simp at hx
          omega
      obtain ⟨ih1, ih2, ih3⟩ :=
        floydLoop_spec steps ⟨rng.f, rng.idx + 1⟩ (chosen ++ [j]) (j + 1) hnd' hb'
      have hstep : floydLoop rng chosen j (steps + 1) =
          floydLoop ⟨rng.f, rng.idx + 1⟩ (chosen ++ [j]) (j + 1) steps := by
        simp only [floydLoop, Rng.randrange, if_pos hmem]
      rw [hstep]
      refine ⟨?_, ih2, ?_⟩
      · rw [ih1]
        simp
        omega
      · intro x hx
        have := ih3 x hx
        omega
    · have hnd' : (chosen ++ [rng.f rng.idx % (j + 1)]).Nodup := by
        rw [List.nodup_append]
        refine ⟨hnd, List.nodup_singleton _, ?_⟩
        intro a ha hmem1
        simp at hmem1
        subst hmem1
        exact hmem ha
      have hb' : ∀ x ∈ chosen ++ [rng.f rng.idx % (j + 1)], x < j + 1 := by
        intro x hx
        rcases List.mem_append.mp hx with hx | hx
        · have := hb x hx
          omega
        · simp at hx
          omega
      obtain ⟨ih1, ih2, ih3⟩ :=
        floydLoop_spec steps ⟨rng.f, rng.idx + 1⟩ (chosen ++ [rng.f rng.idx % (j + 1)])
          (j + 1) hnd' hb'
      have hstep : floydLoop rng chosen j (steps + 1) =
          floydLoop ⟨rng.f, rng.idx + 1⟩ (chosen ++ [rng.f rng.idx % (j + 1)]) (j + 1) steps := by
        simp only [floydLoop, Rng.randrange, if_neg hmem]
      rw [hstep]
      refine ⟨?_, ih2, ?_⟩
      · rw [ih1]
        simp
        omega
      · intro x hx
        have := ih3 x hx
        omega

/-- Success/failure behaviour of `_floyd_sample_indices` (shared
helper; the claim C3 theorem below restates it). -/
theorem floyd_sample_indices_spec (total sample_size : Nat) (rng : Rng) :
    (sample_size ≤ total →
      ∃ l rng', _floyd_sample_indices total sample_size rng = .ok (l, rng') ∧
        l.length = sample_size ∧ l.Nodup ∧ ∀ x ∈ l, x < total) ∧
    (total < sample_size →
      ∃ e, _floyd_sample_indices total sample_size rng = .error e) := by
  constructor
  · intro h
    obtain ⟨h1, h2, h3⟩ :=
      floydLoop_spec sample_size rng [] (total - sample_size) List.nodup_nil (by simp)
    refine ⟨(floydLoop rng [] (total - sample_size) sample_size).1,
      (floydLoop rng [] (total - sample_size) sample_size).2, ?_, by simpa using h1, h2, ?_⟩
    · simp [_floyd_sample_indices, Nat.not_lt.mpr h]
    · intro x hx
      have := h3 x hx
      omega
  · intro h
    exact ⟨"sample_size cannot exceed total", by simp [_floyd_sample_indices, h]⟩

/-- C3: for every `0 ≤ S ≤ T` and every rng state,
`_floyd_sample_indices(T, S)` returns exactly `S` distinct integers,
each in `[0, T)`; and for `S > T` it fails with a `ValueError`. -/
theorem C3_floyd_spec (total sample_size : Nat) (rng : Rng) :
    (sample_size ≤ total →
      ∃ l rng', _floyd_sample_indices total sample_size rng = .ok (l, rng') ∧
        l.length = sample_size ∧ l.Nodup ∧ ∀ x ∈ l, x < total) ∧
    (total < sample_size →
      ∃ e, _floyd_sample_indices total sample_size rng = .error e) :=
  floyd_sample_indices_spec total sample_size rng

/-- Witness for C3 at `T = 4`, `S = 2`. -/
theorem C3_floyd_spec_witness :
    (2 : Nat) ≤ 4 ∧ ∃ l rng', _floyd_sample_indices 4 2 ⟨fun _ => 1, 0⟩ = .ok (l, rng') ∧
      l.length = 2 ∧ l.Nodup ∧ ∀ x ∈ l, x < 4 :=
  ⟨by decide, (C3_floyd_spec 4 2 ⟨fun _ => 1, 0⟩).1 (by decide)⟩

/-! ## Correctness of `_sample_exact_combinations` -/

/-- When all ranks are in range, the unranking loop succeeds and maps
each rank to its object combination. -/
theorem buildCombos_eq [Inhabited α] (objects : List α) (n k : Nat) (hk : k ≤ n) :
    ∀ ranks : List Nat, (∀ r ∈ ranks, r < Nat.choose n k) →
      buildCombos objects n k ranks =
        .ok (ranks.map fun r => (unrankAux k n r).reverse.map fun i => objects.getD i default)
  | [], _ => rfl
  | r :: rs, hb => by
    have hr : r < Nat.choose n k := hb r (List.mem_cons_self r rs)
    have hrec := buildCombos_eq objects n k hk rs fun x hx => hb x (List.mem_cons_of_mem r hx)
    have hunr : _unrank_comb n k r = .ok (unrankAux k n r).reverse := by
      simp [_unrank_comb, hk, hr]
    simp only [buildCombos, hunr, hrec]
    rfl

/-- Full success behaviour of `_sample_exact_combinations` when the
request does not exceed the combination space. -/
theorem sample_exact_combinations_ok [Inhabited α] (objects : List α) (k N : Nat)
    (rng : Rng) (hk : k ≤ objects.length) (hN : N ≤ Nat.choose objects.length k) :
    ∃ ranks rng',
      _floyd_sample_indices (Nat.choose objects.length k) N rng = .ok (ranks, rng') ∧
      ranks.length = N ∧ ranks.Nodup ∧ (∀ r ∈ ranks, r < Nat.choose objects.length k) ∧
      _sample_exact_combinations objects k N rng =
        .ok (ranks.map fun r =>
          (unrankAux k objects.length r).reverse.map fun i => objects.getD i default, rng') := by
  obtain ⟨ranks, rng', hfl, hlen, hnd, hbound⟩ :=
    (floyd_sample_indices_spec (Nat.choose objects.length k) N rng).1 hN
  refine ⟨ranks, rng', hfl, hlen, hnd, hbound, ?_⟩
  simp only [_sample_exact_combinations, if_pos hk, if_neg (Nat.not_lt.mpr hN), hfl,
    buildCombos_eq objects objects.length k hk ranks hbound]

/-- Mapping in-range indices through `objects.getD` is injective on
lists when `objects` has no duplicates. -/
theorem map_getD_inj [Inhabited α] (objects : List α) (hnd : objects.Nodup) :
    ∀ l1 l2 : List Nat, (∀ x ∈ l1, x < objects.length) → (∀ x ∈ l2, x < objects.length) →
      l1.map (fun i => objects.getD i default) = l2.map (fun i => objects.getD i default) →
      l1 = l2
  | [], [], _, _, _ => rfl
  | [], _ :: _, _, _, h => by simp at h
  | _ :: _, [], _, _, h => by simp at h
  | a :: l1, b :: l2, h1, h2, h => by
    simp only [List.map_cons, List.cons.injEq] at h
    have ha : a < objects.length := h1 a (List.mem_cons_self a l1)
    have hb : b < objects.length := h2 b (List.mem_cons_self b l2)
    have hga : objects.getD a default = objects[a] := by
      simp [List.getD_eq_getElem?_getD, List.getElem?_eq_getElem ha]
    have hgb : objects.getD b default = objects[b] := by
      simp [List.getD_eq_getElem?_getD, List.getElem?_eq_getElem hb]
    have hab : a = b := by
      rw [hga, hgb] at h
      exact (List.Nodup.getElem_inj_iff hnd).mp h.1
    subst hab
    have := map_getD_inj objects hnd l1 l2
      (fun x hx => h1 x (List.mem_cons_of_mem a hx))
      (fun x hx => h2 x (List.mem_cons_of_mem a hx)) h.2
    rw [this]

/-- C2 (amended): for `0 ≤ k ≤ n`, `_sample_exact_combinations` raises
`ValueError` when `N > C(n, k)`; when `N ≤ C(n, k)` it returns exactly
`N` combinations of `k` objects whose underlying index sets are
pairwise distinct — hence pairwise distinct combinations whenever the
objects themselves are pairwise distinct.  (On object sequences with
duplicated entries, equal object combinations can occur; see the
counterexample.) -/
theorem C2_sample_distinct_amended [Inhabited α] (objects : List α) (k N : Nat)
    (rng : Rng) (hk : k ≤ objects.length) :
    (Nat.choose objects.length k < N →
      ∃ e, _sample_exact_combinations objects k N rng = .error e) ∧
    (N ≤ Nat.choose objects.length k →
      ∃ combos rng', _sample_exact_combinations objects k N rng = .ok (combos, rng') ∧
        combos.length = N ∧ (∀ c ∈ combos, c.length = k) ∧
        (objects.Nodup → combos.Nodup)) := by
  constructor
  · intro h
    exact ⟨"cannot request more combinations than exist",
      by simp [_sample_exact_combinations, if_pos hk, h]⟩
  · intro hN
    obtain ⟨ranks, rng', _, hlen, hnd, hbound, heq⟩ :=
      sample_exact_combinations_ok objects k N rng hk hN
    refine ⟨_, rng', heq, ?_, ?_, ?_⟩
    · simp [hlen]
    · intro c hc
      simp only [List.mem_map] at hc
      obtain ⟨r, hr, rfl⟩ := hc
      obtain ⟨hl, _, _, _⟩ := unrankAux_spec k objects.length r (hbound r hr)
      simp [hl]
    · intro hobj
      apply List.Nodup.map_on ?_ hnd
      intro r1 hr1 r2 hr2 heq2
      obtain ⟨len1, p1, b1, w1⟩ := unrankAux_spec k objects.length r1 (hbound r1 hr1)
      obtain ⟨len2, p2, b2, w2⟩ := unrankAux_spec k objects.length r2 (hbound r2 hr2)
      have hrev : (unrankAux k objects.length r1).reverse =
          (unrankAux k objects.length r2).reverse := by
        apply map_getD_inj objects hobj _ _ ?_ ?_ heq2
        · intro x hx
          exact b1 x (List.mem_reverse.mp hx)
        · intro x hx
          exact b2 x (List.mem_reverse.mp hx)
      have := List.reverse_injective hrev
      rw [← w1, ← w2, this]

/-- Witness for the amended C2 at two distinct objects, `k = 1`, `N = 2`. -/
theorem C2_sample_distinct_amended_witness :
    (1 : Nat) ≤ ([10, 20] : List Nat).length ∧
    (2 ≤ Nat.choose ([10, 20] : List Nat).length 1 ∧
      ∃ combos rng',
        _sample_exact_combinations ([10, 20] : List Nat) 1 2 ⟨fun _ => 0, 0⟩ =
          .ok (combos, rng') ∧
        combos.length = 2 ∧ (∀ c ∈ combos, c.length = 1) ∧
        (([10, 20] : List Nat).Nodup → combos.Nodup)) :=
  ⟨by decide, by decide,
    (C2_sample_distinct_amended ([10, 20] : List Nat) 1 2 ⟨fun _ => 0, 0⟩ (by decide)).2
      (by decide)⟩

/-- Counterexample to C2 as stated: on the object sequence `[0, 0]`
(two equal objects) with `k = 1`, `N = 2 = C(2, 1)`, the function
succeeds but returns the combination `[0]` twice — two identical
combinations as sets. -/
theorem C2_counterexample_duplicate_objects :
    (Except.map (fun p => p.1)
        (_sample_exact_combinations ([0, 0] : List Nat) 1 2 ⟨fun _ => 0, 0⟩)) =
      .ok [[0], [0]] ∧
    ¬ ([[0], [0]] : List (List Nat)).Nodup := by
  constructor
  · rfl
  · decide

/-! ## Claims about `create_cross_document_dataset` -/

/-- Bridging lemma: once the config shape is known, the wrapper reduces
to `createChecked`. -/
theorem create_eq_checked (ds : PyDataset) (cfg : StageCfg) (f : Int → Nat → Nat)
    (mi ma : Int) (hshape : cfg.num_docs_per_combination = [mi, ma]) :
    create_cross_document_dataset ds cfg f = createChecked ds cfg f mi ma := by
  unfold create_cross_document_dataset
  rw [hshape]

/-- C6: determinism — two runs with identical corpus, config and
`random_seed` (under the same PRNG algorithm, modelled by the stream
family `f`) produce identical record ids, combined chunks and combined
summaries.  The embedding is a pure function of these inputs: every
random draw comes from the single explicitly threaded seeded stream. -/
theorem C6_determinism (ds1 ds2 : PyDataset) (cfg1 cfg2 : StageCfg)
    (f1 f2 : Int → Nat → Nat) (hds : ds1 = ds2) (hcfg : cfg1 = cfg2) (hf : f1 = f2) :
    (create_cross_document_dataset ds1 cfg1 f1).map (List.map (·.document_id)) =
      (create_cross_document_dataset ds2 cfg2 f2).map (List.map (·.document_id)) ∧
    (create_cross_document_dataset ds1 cfg1 f1).map (List.map (·.multihop_chunks)) =
      (create_cross_document_dataset ds2 cfg2 f2).map (List.map (·.multihop_chunks)) ∧
    (create_cross_document_dataset ds1 cfg1 f1).map (List.map (·.document_summary)) =
      (create_cross_document_dataset ds2 cfg2 f2).map (List.map (·.document_summary)) := by
  subst hds
  subst hcfg
  subst hf
  exact ⟨rfl, rfl, rfl⟩

/-- Witness for C6 on a concrete corpus and the default config. -/
theorem C6_determinism_witness :
    (create_cross_document_dataset dsABC cfgDefault zeroStream).map
        (List.map (·.document_id)) =
      (create_cross_document_dataset dsABC cfgDefault zeroStream).map
        (List.map (·.document_id)) ∧
    (create_cross_document_dataset dsABC cfgDefault zeroStream).map
        (List.map (·.multihop_chunks)) =
      (create_cross_document_dataset dsABC cfgDefault zeroStream).map
        (List.map (·.multihop_chunks)) ∧
    (create_cross_document_dataset dsABC cfgDefault zeroStream).map
        (List.map (·.document_summary)) =
      (create_cross_document_dataset dsABC cfgDefault zeroStream).map
        (List.map (·.document_summary)) :=
  C6_determinism dsABC dsABC cfgDefault cfgDefault zeroStream zeroStream rfl rfl rfl

/-- C9: with a valid configuration, whenever the count of valid
documents is strictly below `min_docs`, the function returns an empty
output and raises no error. -/
theorem C9_insufficient_docs_empty (ds : PyDataset) (cfg : StageCfg)
    (f : Int → Nat → Nat) (mi ma : Int)
    (hshape : cfg.num_docs_per_combination = [mi, ma]) (hmi : 2 ≤ mi) (hma : mi ≤ ma)
    (hcpd : 1 ≤ cfg.chunks_per_document)
    (hdocs : ((extractDocs ds.rows).length : Int) < mi) :
    create_cross_document_dataset ds cfg f = .ok [] := by
  rw [create_eq_checked ds cfg f mi ma hshape]
  unfold createChecked
  rw [if_neg (by omega), if_neg (by omega), if_neg (by omega)]
  cases hcol : ds.hasMultihopColumn
  · simp
  · simp [hdocs]

/-- Witness for C9: one valid document, `min_docs = 2`. -/
theorem C9_insufficient_docs_empty_witness :
    create_cross_document_dataset ⟨true, [rowA]⟩ cfgDefault zeroStream = .ok [] :=
  C9_insufficient_docs_empty ⟨true, [rowA]⟩ cfgDefault zeroStream 2 5 rfl
    (by decide) (by decide) (by decide) (by decide)

/-- With a negative (or zero) budget the size loop emits nothing: the
first size with a nonzero combination count hits `remaining ≤ 0` and
breaks. -/
theorem sizesLoop_nonpos_empty (docs : List Doc) (cpd : Nat) (totalPoss : Nat)
    (actualMax : Int) (hneg : actualMax ≤ 0) :
    ∀ (sizes : List Nat) (rng : Rng),
      (sizesLoop docs cpd totalPoss actualMax sizes [] rng).1 = []
  | [], _ => rfl
  | g :: rest, rng => by
    simp only [sizesLoop]
    by_cases h0 : Nat.choose docs.length g = 0
    · rw [if_pos h0]
      exact sizesLoop_nonpos_empty docs cpd totalPoss actualMax hneg rest rng
    · rw [if_neg h0]
      rw [if_pos (by simp; omega)]

/-- C8 (amended): a negative `max_combinations` is not validated and
raises no error; the budget `actualMax = min(max_combinations,
totalPossible)` is then negative, so the loop stops immediately and the
output is empty. -/
theorem C8_negative_max_amended (ds : PyDataset) (cfg : StageCfg)
    (f : Int → Nat → Nat) (mi ma : Int)
    (hshape : cfg.num_docs_per_combination = [mi, ma]) (hmi : 2 ≤ mi) (hma : mi ≤ ma)
    (hcpd : 1 ≤ cfg.chunks_per_document) (hneg : cfg.max_combinations < 0) :
    create_cross_document_dataset ds cfg f = .ok [] := by
  rw [create_eq_checked ds cfg f mi ma hshape]
  unfold createChecked
  rw [if_neg (by omega), if_neg (by omega), if_neg (by omega)]
  cases hcol : ds.hasMultihopColumn
  · simp
  · simp only [Bool.not_true, Bool.false_eq_true, if_false]
    by_cases hdocs : ((extractDocs ds.rows).length : Int) < mi
    · simp [hdocs]
    · rw [if_neg hdocs]
      have hmin : min cfg.max_combinations
          ((totalPossible (extractDocs ds.rows).length mi ma : Nat) : Int) ≤ 0 := by
        have := min_le_left cfg.max_combinations
          ((totalPossible (extractDocs ds.rows).length mi ma : Nat) : Int)
        omega
      rw [sizesLoop_nonpos_empty _ _ _ _ hmin]

/-- Witness for the amended C8: a concrete two-document corpus with
`max_combinations = -1`. -/
theorem C8_negative_max_amended_witness :
    create_cross_document_dataset dsAB cfgNegMax zeroStream = .ok [] :=
  C8_negative_max_amended dsAB cfgNegMax zeroStream 2 2 rfl (by decide) (by decide)
    (by decide) (by decide)

/-- Counterexample to C8 as stated: with `max_combinations = -1` and a
corpus of two valid documents, no configuration error is raised — the
run completes and returns an empty dataset. -/
theorem C8_counterexample_negative_max :
    create_cross_document_dataset dsAB cfgNegMax zeroStream = .ok [] ∧
    ∀ e, create_cross_document_dataset dsAB cfgNegMax zeroStream ≠ .error e := by
  constructor
  · rfl
  · intro e h
    have h' : (Except.ok [] : Except String (List CrossRow)) = .error e := h
    exact Except.noConfusion h'

/-- Counterexample to C7 as stated: the code keeps characters passing
Python's Unicode-aware `str.isalnum`, so `"Doc #1/α"` sanitizes to
`"Doc1α"` (the Greek letter survives), not `"Doc1"`. -/
theorem C7_counterexample_unicode :
    sanitizeId "Doc #1/α" = "Doc1α" ∧ ("Doc1α" : String) ≠ "Doc1" := by
  constructor
  · decide
  · decide

/-- C7 (amended): sanitization keeps exactly the characters that are
Python-alphanumeric (Unicode `str.isalnum`) or in `"_-"`, so
`"Doc #1/α"` sanitizes to `"Doc1α"`; an id that sanitizes to the empty
string falls back to `"doc_{originalIndex}"`, and an absent id is
replaced by `"doc_{originalIndex}"` before sanitization. -/
theorem C7_sanitize_fallback_amended :
    sanitizeId "Doc #1/α" = "Doc1α" ∧
    (∀ (idx : Nat) (s : Option String) (mh : Option (List MHChunk)) (d : Doc)
        (str : String), sanitizeId str = "" →
      extractDoc idx ⟨some str, s, mh⟩ = some d → d.document_id = s!"doc_{idx}") ∧
    (∀ (idx : Nat) (s : Option String) (mh : Option (List MHChunk)),
      extractDoc idx ⟨none, s, mh⟩ = extractDoc idx ⟨some s!"doc_{idx}", s, mh⟩) := by
  refine ⟨by decide, ?_, ?_⟩
  · intro idx s mh d str hempty hex
    cases mh with
    | none => exact absurd hex (by simp [extractDoc])
    | some l =>
      by_cases h1 : l.isEmpty
      · exact absurd hex (by simp [extractDoc, h1])
      · by_cases h2 : (l.filter validChunk).isEmpty
        · exact absurd hex (by simp [extractDoc, h1, h2])
        · have hcomp : extractDoc idx ⟨some str, s, some l⟩ =
              some ⟨s!"doc_{idx}", idx, s.getD "", l.filter validChunk⟩ := by
            simp [extractDoc, h1, h2, hempty]
          rw [hcomp] at hex
          simp only [Option.some.injEq] at hex
          rw [← hex]
  · intro idx s mh
    rfl

/-- Witness for the amended C7: a concrete id that sanitizes to empty
falls back to `doc_5`. -/
theorem C7_sanitize_fallback_amended_witness :
    sanitizeId "#" = "" ∧
    extractDoc 5 ⟨some "#", some "x", some [fixtureChunk]⟩ =
      some ⟨"doc_5", 5, "x", [fixtureChunk]⟩ ∧
    (⟨"doc_5", 5, "x", [fixtureChunk]⟩ : Doc).document_id = s!"doc_{(5 : Nat)}" :=
  ⟨by decide, rfl,
    C7_sanitize_fallback_amended.2.1 5 (some "x") (some [fixtureChunk])
      ⟨"doc_5", 5, "x", [fixtureChunk]⟩ "#" (by decide) rfl⟩

/-- Each processed combination adds at most one record. -/
theorem processCombos_length_le (cpd : Nat) :
    ∀ (combos : List (List Doc)) (acc : List CrossRow) (rng : Rng),
      (processCombos cpd combos acc rng).1.length ≤ acc.length + combos.length
  | [], acc, rng => by simp [processCombos]
  | grp :: rest, acc, rng => by
    simp only [processCombos]
    by_cases h : (sampleFromGroup cpd grp rng).1.length < grp.length
    · rw [if_pos h]
      have := processCombos_length_le cpd rest acc (sampleFromGroup cpd grp rng).2
      simp only [List.length_cons]
      omega
    · rw [if_neg h]
      have := processCombos_length_le cpd rest
        (acc ++ [mkCrossRow cpd grp (sampleFromGroup cpd grp rng).1])
        (sampleFromGroup cpd grp rng).2
      simp only [List.length_append, List.length_cons, List.length_nil] at this
      simp only [List.length_cons]
      omega

/-- A successful `_sample_exact_combinations` call returns exactly `N`
combinations. -/
theorem sample_exact_length [Inhabited α] (objects : List α) (k N : Nat) (rng : Rng)
    (res : List (List α) × Rng)
    (h : _sample_exact_combinations objects k N rng = .ok res) :
    res.1.length = N := by
  simp only [_sample_exact_combinations] at h
  by_cases hk : k ≤ objects.length
  · rw [if_pos hk] at h
    by_cases hN : N > Nat.choose objects.length k
    · rw [if_pos hN] at h
      exact absurd h (by simp)
    · rw [if_neg hN] at h
      push_neg at hN
      obtain ⟨ranks, rng'', hfl, hlen, _, hbound⟩ :=
        (floyd_sample_indices_spec (Nat.choose objects.length k) N rng).1 hN
      rw [hfl] at h
      simp only at h
      rw [buildCombos_eq objects objects.length k hk ranks hbound] at h
      simp only [Except.ok.injEq] at h
      rw [← h]
      simp [hlen]
  · rw [if_neg hk] at h
    exact absurd h (by simp)

/-- Budget invariant of the size loop: the record count never exceeds
`actualMax`. -/
theorem sizesLoop_budget (docs : List Doc) (cpd : Nat) (totalPoss : Nat)
    (actualMax : Int) :
    ∀ (sizes : List Nat) (acc : List CrossRow) (rng : Rng),
      (acc.length : Int) ≤ actualMax →
      ((sizesLoop docs cpd totalPoss actualMax sizes acc rng).1.length : Int) ≤ actualMax
  | [], _, _, h => h
  | g :: rest, acc, rng, h => by
    simp only [sizesLoop]
    by_cases h0 : Nat.choose docs.length g = 0
    · rw [if_pos h0]
      exact sizesLoop_budget docs cpd totalPoss actualMax rest acc rng h
    · rw [if_neg h0]
      by_cases h1 : actualMax - (acc.length : Int) ≤ 0
      · rw [if_pos h1]
        exact h
      · rw [if_neg h1]
        by_cases h2 : takeFor docs totalPoss actualMax g acc.length ≤ 0
        · rw [if_pos h2]
          exact sizesLoop_budget docs cpd totalPoss actualMax rest acc rng h
        · rw [if_neg h2]
          cases hs : _sample_exact_combinations docs g
              (takeFor docs totalPoss actualMax g acc.length).toNat rng with
          | error e => exact sizesLoop_budget docs cpd totalPoss actualMax rest acc rng h
          | ok res =>
            have hlen := sample_exact_length docs g _ rng res hs
            have hpc := processCombos_length_le cpd res.1 acc res.2
            apply sizesLoop_budget docs cpd totalPoss actualMax rest _ _
            have htake : takeFor docs totalPoss actualMax g acc.length ≤
                actualMax - (acc.length : Int) := min_le_right _ _
            omega

/-- C4: for every corpus and valid config (`max_combinations ≥ 0`), the
number of records returned is at most
`min(max_combinations, totalPossible)`. -/
theorem C4_budget_bound (ds : PyDataset) (cfg : StageCfg) (f : Int → Nat → Nat)
    (mi ma : Int) (out : List CrossRow)
    (hshape : cfg.num_docs_per_combination = [mi, ma])
    (hmc : 0 ≤ cfg.max_combinations)
    (hok : create_cross_document_dataset ds cfg f = .ok out) :
    (out.length : Int) ≤
      min cfg.max_combinations (totalPossible (extractDocs ds.rows).length mi ma) := by
  rw [create_eq_checked ds cfg f mi ma hshape] at hok
  simp only [createChecked] at hok
  have hminpos : 0 ≤
      min cfg.max_combinations
        ((totalPossible (extractDocs ds.rows).length mi ma : Nat) : Int) := by
    have h1 : (0 : Int) ≤ ((totalPossible (extractDocs ds.rows).length mi ma : Nat) : Int) :=
      Int.natCast_nonneg _
    omega
  by_cases hv1 : mi < 2
  · rw [if_pos hv1] at hok
    exact absurd hok (by simp)
  · rw [if_neg hv1] at hok
    by_cases hv2 : ma < mi
    · rw [if_pos hv2] at hok
      exact absurd hok (by simp)
    · rw [if_neg hv2] at hok
      by_cases hv3 : cfg.chunks_per_document < 1
      · rw [if_pos hv3] at hok
        exact absurd hok (by simp)
      · rw [if_neg hv3] at hok
        cases hcol : ds.hasMultihopColumn with
        | false =>
          rw [hcol] at hok
          simp only [Bool.not_false, if_true, Except.ok.injEq] at hok
          rw [← hok]
          simpa using hminpos
        | true =>
          rw [hcol] at hok
          simp only [Bool.not_true, Bool.false_eq_true, if_false] at hok
          by_cases hdocs : ((extractDocs ds.rows).length : Int) < mi
          · rw [if_pos hdocs] at hok
            simp only [Except.ok.injEq] at hok
            rw [← hok]
            simpa using hminpos
          · rw [if_neg hdocs] at hok
            simp only [Except.ok.injEq] at hok
            rw [← hok]
            exact sizesLoop_budget _ _ _ _ _ [] _ (by simpa using hminpos)

/-- Witness for C4 on a corpus without the `multihop_chunks` column. -/
theorem C4_budget_bound_witness :
    ((StageCfg.num_docs_per_combination cfgDefault) = [(2 : Int), 5] ∧
     (0 : Int) ≤ cfgDefault.max_combinations ∧
     create_cross_document_dataset ⟨false, []⟩ cfgDefault zeroStream = .ok []) ∧
    (((([] : List CrossRow)).length : Int) ≤
      min cfgDefault.max_combinations (totalPossible (extractDocs ([] : List Row)).length 2 5)) :=
  ⟨⟨rfl, by decide, rfl⟩,
    C4_budget_bound ⟨false, []⟩ cfgDefault zeroStream 2 5 [] rfl (by decide) rfl⟩

/-! ## Extraction invariants and the no-discard property (C10) -/

/-- A successfully extracted document records its enumeration index. -/
theorem extractDoc_original_index (idx : Nat) (r : Row) (d : Doc)
    (h : extractDoc idx r = some d) : d.original_index = idx := by
  cases hmh : r.multihop_chunks with
  | none =>
    simp only [extractDoc, hmh] at h
    exact absurd h (by simp)
  | some l =>
    simp only [extractDoc, hmh] at h
    by_cases h1 : l.isEmpty
    · rw [if_pos h1] at h
      exact absurd h (by simp)
    · rw [if_neg h1] at h
      by_cases h2 : (l.filter validChunk).isEmpty
      · rw [if_pos h2] at h
        exact absurd h (by simp)
      · rw [if_neg h2] at h
        simp only [Option.some.injEq] at h
        rw [← h]

/-- A successfully extracted document has a non-empty valid-chunk list. -/
theorem extractDoc_chunks_ne_nil (idx : Nat) (r : Row) (d : Doc)
    (h : extractDoc idx r = some d) : d.multihop_chunks ≠ [] := by
  cases hmh : r.multihop_chunks with
  | none =>
    simp only [extractDoc, hmh] at h
    exact absurd h (by simp)
  | some l =>
    simp only [extractDoc, hmh] at h
    by_cases h1 : l.isEmpty
    · rw [if_pos h1] at h
      exact absurd h (by simp)
    · rw [if_neg h1] at h
      by_cases h2 : (l.filter validChunk).isEmpty
      · rw [if_pos h2] at h
        exact absurd h (by simp)
      · rw [if_neg h2] at h
        simp only [Option.some.injEq] at h
        rw [← h]
        simpa using h2

/-- Every document in the extraction loop's output has an index at
least the loop's starting index. -/
theorem extractDocsAux_index_ge : ∀ (rows : List Row) (start : Nat) (d : Doc),
    d ∈ extractDocsAux start rows → start ≤ d.original_index
  | [], _, d, h => absurd h (List.not_mem_nil d)
  | r :: rs, start, d, h => by
    simp only [extractDocsAux] at h
    cases hx : extractDoc start r with
    | none =>
      rw [hx] at h
      have := extractDocsAux_index_ge rs (start + 1) d h
      omega
    | some d' =>
      rw [hx] at h
      rcases List.mem_cons.mp h with h | h
      · subst h
        rw [extractDoc_original_index start r d hx]
      · have := extractDocsAux_index_ge rs (start + 1) d h
        omega

/-- The extracted documents carry strictly increasing original
indices. -/
theorem extractDocsAux_pairwise : ∀ (rows : List Row) (start : Nat),
    (extractDocsAux start rows).Pairwise fun a b =>
      a.original_index < b.original_index
  | [], _ => List.Pairwise.nil
  | r :: rs, start => by
    simp only [extractDocsAux]
    cases hx : extractDoc start r with
    | none => exact extractDocsAux_pairwise rs (start + 1)
    | some d' =>
      refine List.Pairwise.cons ?_ (extractDocsAux_pairwise rs (start + 1))
      intro b hb
      have h1 := extractDocsAux_index_ge rs (start + 1) b hb
      have h2 := extractDoc_original_index start r d' hx
      omega

/-- Every surviving document has at least one valid chunk. -/
theorem extractDocsAux_chunks_ne_nil : ∀ (rows : List Row) (start : Nat) (d : Doc),
    d ∈ extractDocsAux start rows → d.multihop_chunks ≠ []
  | [], _, d, h => absurd h (List.not_mem_nil d)
  | r :: rs, start, d, h => by
    simp only [extractDocsAux] at h
    cases hx : extractDoc start r with
    | none =>
      rw [hx] at h
      exact extractDocsAux_chunks_ne_nil rs (start + 1) d h
    | some d' =>
      rw [hx] at h
      rcases List.mem_cons.mp h with h | h
      · subst h
        exact extractDoc_chunks_ne_nil start r d hx
      · exact extractDocsAux_chunks_ne_nil rs (start + 1) d h

/-- `rng.sample` returns exactly the requested number of chunks. -/
theorem rng_sample_length : ∀ (m : Nat) (r : Rng) (l : List MHChunk),
    (Rng.sample r l m).1.length = m
  | 0, _, _ => rfl
  | m + 1, r, l => by
    simp only [Rng.sample, List.length_cons]
    rw [rng_sample_length m]

/-- Each document with a non-empty chunk list contributes at least one
sampled chunk, so a group contributes at least one chunk per document. -/
theorem sampleFromGroup_length_ge (cpd : Nat) (hcpd : 1 ≤ cpd) :
    ∀ (grp : List Doc) (rng : Rng), (∀ d ∈ grp, d.multihop_chunks ≠ []) →
      grp.length ≤ (sampleFromGroup cpd grp rng).1.length
  | [], _, _ => by simp [sampleFromGroup]
  | d :: ds, rng, hne => by
    have hd : d.multihop_chunks ≠ [] := hne d (List.mem_cons_self d ds)
    have hie : d.multihop_chunks.isEmpty = false := by simpa using hd
    have hlen1 : 1 ≤ d.multihop_chunks.length := by
      cases hl : d.multihop_chunks with
      | nil => exact absurd hl hd
      | cons a as => simp
    simp only [sampleFromGroup, hie, Bool.false_eq_true, if_false]
    have hrest : ∀ r2 : Rng, ds.length ≤ (sampleFromGroup cpd ds r2).1.length :=
      fun r2 => sampleFromGroup_length_ge cpd hcpd ds r2
        fun x hx => hne x (List.mem_cons_of_mem d hx)
    by_cases h1 : min cpd d.multihop_chunks.length = 1
    · rw [if_pos h1]
      have h2 := hrest (rng.choice d.multihop_chunks).2
      simp only [List.length_append, List.length_cons, List.length_nil]
      omega
    · rw [if_neg h1]
      have h2 := hrest (rng.sample d.multihop_chunks (min cpd d.multihop_chunks.length)).2
      simp only [List.length_append, List.length_cons]
      rw [rng_sample_length]
      have : 1 ≤ min cpd d.multihop_chunks.length := le_min hcpd hlen1
      omega

/-- When every document of every drawn group has chunks, no group is
discarded: the loop emits exactly one record per combination. -/
theorem processCombos_no_discard (cpd : Nat) (hcpd : 1 ≤ cpd) :
    ∀ (combos : List (List Doc)) (acc : List CrossRow) (rng : Rng),
      (∀ grp ∈ combos, ∀ d ∈ grp, d.multihop_chunks ≠ []) →
      (processCombos cpd combos acc rng).1.length = acc.length + combos.length
  | [], acc, rng, _ => by simp [processCombos]
  | grp :: rest, acc, rng, hne => by
    have hg := sampleFromGroup_length_ge cpd hcpd grp rng
      (hne grp (List.mem_cons_self grp rest))
    simp only [processCombos]
    rw [if_neg (by omega)]
    rw [processCombos_no_discard cpd hcpd rest _ _
      fun g hgm => hne g (List.mem_cons_of_mem grp hgm)]
    simp only [List.length_append, List.length_cons, List.length_nil]
    omega

/-- C10: every document surviving ingestion filtering has a non-empty
chunk list; each such document contributes at least one sampled chunk,
so a group's sampled-chunk count is at least its size; hence the
"insufficient chunks" discard branch never fires and every drawn
combination yields exactly one emitted record. -/
theorem C10_no_discard :
    (∀ (rows : List Row) (d : Doc), d ∈ extractDocs rows → d.multihop_chunks ≠ []) ∧
    (∀ (cpd : Nat) (grp : List Doc) (rng : Rng), 1 ≤ cpd →
      (∀ d ∈ grp, d.multihop_chunks ≠ []) →
      grp.length ≤ (sampleFromGroup cpd grp rng).1.length) ∧
    (∀ (cpd : Nat) (combos : List (List Doc)) (acc : List CrossRow) (rng : Rng),
      1 ≤ cpd → (∀ grp ∈ combos, ∀ d ∈ grp, d.multihop_chunks ≠ []) →
      (processCombos cpd combos acc rng).1.length = acc.length + combos.length) :=
  ⟨fun rows d h => extractDocsAux_chunks_ne_nil rows 0 d h,
   fun cpd grp rng hcpd hne => sampleFromGroup_length_ge cpd hcpd grp rng hne,
   fun cpd combos acc rng hcpd hne => processCombos_no_discard cpd hcpd combos acc rng hne⟩

/-- Witness for C10 on a concrete one-group draw. -/
theorem C10_no_discard_witness :
    (1 : Nat) ≤ 1 ∧
    (∀ grp ∈ [[(⟨"A", 0, "sumA", [fixtureChunk]⟩ : Doc)]],
      ∀ d ∈ grp, d.multihop_chunks ≠ []) ∧
    (processCombos 1 [[(⟨"A", 0, "sumA", [fixtureChunk]⟩ : Doc)]] []
        ⟨fun _ => 0, 0⟩).1.length = ([] : List CrossRow).length + 1 :=
  ⟨by decide, by decide,
    C10_no_discard.2.2 1 [[(⟨"A", 0, "sumA", [fixtureChunk]⟩ : Doc)]] []
      ⟨fun _ => 0, 0⟩ (by decide) (by decide)⟩

/-! ## The three-document scenario (C5) -/

/-- When the sample saturates the range (`S = T`), Floyd's loop
necessarily collects all of `[0, T)` — in ascending insertion order,
whatever the rng values are. -/
theorem floydLoop_saturated : ∀ (steps : Nat) (rng : Rng) (j : Nat),
    floydLoop rng (List.range j) j steps =
      (List.range (j + steps), ⟨rng.f, rng.idx + steps⟩)
  | 0, rng, j => by simp [floydLoop]
  | steps + 1, rng, j => by
    have hmod : rng.f rng.idx % (j + 1) < j + 1 := Nat.mod_lt _ (Nat.succ_pos j)
    simp only [floydLoop, Rng.randrange]
    by_cases hmem : rng.f rng.idx % (j + 1) ∈ List.range j
    · rw [if_pos hmem, ← List.range_succ,
        floydLoop_saturated steps ⟨rng.f, rng.idx + 1⟩ (j + 1)]
      have h1 : j + 1 + steps = j + (steps + 1) := by omega
      have h2 : rng.idx + 1 + steps = rng.idx + (steps + 1) := by omega
      rw [h1, h2]
    · have heq : rng.f rng.idx % (j + 1) = j := by
        rcases Nat.lt_or_ge (rng.f rng.idx % (j + 1)) j with h | h
        · exact absurd (List.mem_range.mpr h) hmem
        · omega
      rw [if_neg hmem, heq, ← List.range_succ,
        floydLoop_saturated steps ⟨rng.f, rng.idx + 1⟩ (j + 1)]
      have h1 : j + 1 + steps = j + (steps + 1) := by omega
      have h2 : rng.idx + 1 + steps = rng.idx + (steps + 1) := by omega
      rw [h1, h2]

/-- Drawing all `T` indices returns `[0, ..., T-1]`. -/
theorem floyd_full (T : Nat) (rng : Rng) :
    _floyd_sample_indices T T rng = .ok (List.range T, ⟨rng.f, rng.idx + T⟩) := by
  simp only [_floyd_sample_indices]
  rw [if_neg (lt_irrefl T), Nat.sub_self]
  have h := floydLoop_saturated T rng 0
  rw [show List.range 0 = ([] : List Nat) from rfl, Nat.zero_add] at h
  rw [h]

/-- Requesting the full combination space enumerates all combinations
in colexicographic rank order, independently of the rng values. -/
theorem sample_exact_full [Inhabited α] (objects : List α) (k : Nat) (rng : Rng)
    (hk : k ≤ objects.length) :
    _sample_exact_combinations objects k (Nat.choose objects.length k) rng =
      .ok ((List.range (Nat.choose objects.length k)).map fun r =>
          (unrankAux k objects.length r).reverse.map fun i => objects.getD i default,
        ⟨rng.f, rng.idx + Nat.choose objects.length k⟩) := by
  simp only [_sample_exact_combinations]
  rw [if_pos hk, if_neg (lt_irrefl _), floyd_full]
  simp only
  rw [buildCombos_eq objects objects.length k hk _
    fun r hr => List.mem_range.mp hr]

/-- Drawing all three pairs from a three-element corpus. -/
theorem sample_pairs_of_three (d0 d1 d2 : Doc) (rng : Rng) :
    _sample_exact_combinations [d0, d1, d2] 2 3 rng =
      .ok ([[d0, d1], [d0, d2], [d1, d2]], ⟨rng.f, rng.idx + 3⟩) := by
  have h := sample_exact_full [d0, d1, d2] 2 rng (by norm_num)
  rw [show Nat.choose ([d0, d1, d2] : List Doc).length 2 = 3 from by norm_num,
    show ([d0, d1, d2] : List Doc).length = 3 from rfl] at h
  rw [h]
  rfl

/-- Drawing the unique triple from a three-element corpus. -/
theorem sample_triple_of_three (d0 d1 d2 : Doc) (rng : Rng) :
    _sample_exact_combinations [d0, d1, d2] 3 1 rng =
      .ok ([[d0, d1, d2]], ⟨rng.f, rng.idx + 1⟩) := by
  have h := sample_exact_full [d0, d1, d2] 3 rng (by norm_num)
  rw [show Nat.choose ([d0, d1, d2] : List Doc).length 3 = 1 from by norm_num,
    show ([d0, d1, d2] : List Doc).length = 3 from rfl] at h
  rw [h]
  rfl

/-- `sorted` leaves an already sorted list unchanged. -/
theorem sortLe_pairwise_eq (le : α → α → Bool) :
    ∀ l : List α, l.Pairwise (fun a b => le a b = true) → sortLe le l = l
  | [], _ => rfl
  | x :: xs, hp => by
    rw [List.pairwise_cons] at hp
    simp only [sortLe]
    rw [sortLe_pairwise_eq le xs hp.2]
    cases xs with
    | nil => rfl
    | cons y ys =>
      simp only [insertLe]
      rw [if_pos (hp.1 y (List.mem_cons_self y ys))]

/-- The emitted records' source-index lists are the sorted index lists
of the drawn groups, one record per group (no discards). -/
theorem processCombos_map_src (cpd : Nat) (hcpd : 1 ≤ cpd) :
    ∀ (combos : List (List Doc)) (acc : List CrossRow) (rng : Rng),
      (∀ grp ∈ combos, ∀ d ∈ grp, d.multihop_chunks ≠ []) →
      ((processCombos cpd combos acc rng).1.map fun r =>
          r.cross_document_metadata.source_indices) =
        (acc.map fun r => r.cross_document_metadata.source_indices) ++
          combos.map fun grp => sortLe Nat.ble (grp.map (·.original_index))
  | [], acc, rng, _ => by simp [processCombos]
  | grp :: rest, acc, rng, hne => by
    have hg := sampleFromGroup_length_ge cpd hcpd grp rng
      (hne grp (List.mem_cons_self grp rest))
    simp only [processCombos]
    rw [if_neg (by omega)]
    rw [processCombos_map_src cpd hcpd rest _ _
      fun g hgm => hne g (List.mem_cons_of_mem grp hgm)]
    simp [mkCrossRow]

/-- Executing the size loop of the §8 scenario: three documents,
sizes `[2, 3]`, budget 4, one chunk per document.  All three pairs are
drawn (colex ranks 0, 1, 2), then the one triple, each emitting one
record — for every rng stream. -/
theorem sizesLoop_scenario (d0 d1 d2 : Doc) (rng : Rng)
    (hne : ∀ d ∈ ([d0, d1, d2] : List Doc), d.multihop_chunks ≠ []) :
    (sizesLoop [d0, d1, d2] 1 4 4 [2, 3] [] rng).1.length = 4 ∧
    ((sizesLoop [d0, d1, d2] 1 4 4 [2, 3] [] rng).1.map fun r =>
        r.cross_document_metadata.source_indices) =
      [sortLe Nat.ble [d0.original_index, d1.original_index],
       sortLe Nat.ble [d0.original_index, d2.original_index],
       sortLe Nat.ble [d1.original_index, d2.original_index],
       sortLe Nat.ble [d0.original_index, d1.original_index, d2.original_index]] := by
  have hd0 : d0.multihop_chunks ≠ [] := hne d0 (by simp)
  have hd1 : d1.multihop_chunks ≠ [] := hne d1 (by simp)
  have hd2 : d2.multihop_chunks ≠ [] := hne d2 (by simp)
  have hgrp2 : ∀ grp ∈ [[d0, d1], [d0, d2], [d1, d2]],
      ∀ d ∈ grp, d.multihop_chunks ≠ [] := by
    intro grp hg d hd
    simp only [List.mem_cons, List.not_mem_nil, or_false] at hg
    rcases hg with rfl | rfl | rfl <;>
      (simp only [List.mem_cons, List.not_mem_nil, or_false] at hd ;
       rcases hd with rfl | rfl <;> assumption)
  have hgrp3 : ∀ grp ∈ [[d0, d1, d2]], ∀ d ∈ grp, d.multihop_chunks ≠ [] := by
    intro grp hg d hd
    simp only [List.mem_cons, List.not_mem_nil, or_false] at hg
    subst hg
    exact hne d hd
  have hstep1 : sizesLoop [d0, d1, d2] 1 4 4 [2, 3] [] rng =
      sizesLoop [d0, d1, d2] 1 4 4 [3]
        (processCombos 1 [[d0, d1], [d0, d2], [d1, d2]] [] ⟨rng.f, rng.idx + 3⟩).1
        (processCombos 1 [[d0, d1], [d0, d2], [d1, d2]] [] ⟨rng.f, rng.idx + 3⟩).2 := by
    simp only [sizesLoop]
    rw [show ([d0, d1, d2] : List Doc).length = 3 from rfl]
    rw [if_neg (by decide : ¬ (Nat.choose 3 2 = 0))]
    rw [if_neg (by decide : ¬ ((4 : Int) - (List.length ([] : List CrossRow) : Int) ≤ 0))]
    rw [show takeFor [d0, d1, d2] 4 4 2 (List.length ([] : List CrossRow)) = 3 from by
      unfold takeFor
      rw [show ([d0, d1, d2] : List Doc).length = 3 from rfl]
      decide]
    rw [if_neg (by decide : ¬ ((3 : Int) ≤ 0))]
    rw [show ((3 : Int)).toNat = 3 from rfl]
    rw [sample_pairs_of_three d0 d1 d2 rng]
  have hlen1 : (processCombos 1 [[d0, d1], [d0, d2], [d1, d2]] []
      ⟨rng.f, rng.idx + 3⟩).1.length = 3 := by
    rw [processCombos_no_discard 1 (le_refl 1) _ _ _ hgrp2]
    rfl
  have hstep2 : sizesLoop [d0, d1, d2] 1 4 4 [3]
        (processCombos 1 [[d0, d1], [d0, d2], [d1, d2]] [] ⟨rng.f, rng.idx + 3⟩).1
        (processCombos 1 [[d0, d1], [d0, d2], [d1, d2]] [] ⟨rng.f, rng.idx + 3⟩).2 =
      processCombos 1 [[d0, d1, d2]]
        (processCombos 1 [[d0, d1], [d0, d2], [d1, d2]] [] ⟨rng.f, rng.idx + 3⟩).1
        ⟨(processCombos 1 [[d0, d1], [d0, d2], [d1, d2]] [] ⟨rng.f, rng.idx + 3⟩).2.f,
         (processCombos 1 [[d0, d1], [d0, d2], [d1, d2]] [] ⟨rng.f, rng.idx + 3⟩).2.idx + 1⟩ := by
    simp only [sizesLoop]
    rw [show ([d0, d1, d2] : List Doc).length = 3 from rfl]
    rw [if_neg (by decide : ¬ (Nat.choose 3 3 = 0))]
    rw [hlen1]
    rw [if_neg (by decide : ¬ ((4 : Int) - ((3 : Nat) : Int) ≤ 0))]
    rw [show takeFor [d0, d1, d2] 4 4 3 3 = 1 from by
      unfold takeFor
      rw [show ([d0, d1, d2] : List Doc).length = 3 from rfl]
      decide]
    rw [if_neg (by decide : ¬ ((1 : Int) ≤ 0))]
    rw [show ((1 : Int)).toNat = 1 from rfl]
    rw [sample_triple_of_three d0 d1 d2]
  rw [hstep1, hstep2]
  constructor
  · rw [processCombos_no_discard 1 (le_refl 1) _ _ _ hgrp3, hlen1]
    simp
  · rw [processCombos_map_src 1 (le_refl 1) _ _ _ hgrp3,
      processCombos_map_src 1 (le_refl 1) _ _ _ hgrp2]
    simp

/-- C5: for every corpus whose valid documents are exactly three
(each therefore with at least one valid multihop chunk) and config
`min_docs = 2`, `max_docs = 3`, `max_combinations = 10` (default
`chunks_per_document = 1`), the run emits exactly 4 distinct records:
the 3 two-document pairs and the 1 three-document triple. -/
theorem C5_three_docs_scenario (ds : PyDataset) (f : Int → Nat → Nat) (seed : Int)
    (d0 d1 d2 : Doc) (hcol : ds.hasMultihopColumn = true)
    (hdocs : extractDocs ds.rows = [d0, d1, d2]) :
    ∃ out, create_cross_document_dataset ds ⟨10, 1, [2, 3], seed⟩ f = .ok out ∧
      out.length = 4 ∧
      (out.map fun r => r.cross_document_metadata.source_indices) =
        [[d0.original_index, d1.original_index],
         [d0.original_index, d2.original_index],
         [d1.original_index, d2.original_index],
         [d0.original_index, d1.original_index, d2.original_index]] ∧
      out.Nodup := by
  have hpw : ([d0, d1, d2] : List Doc).Pairwise
      (fun a b => a.original_index < b.original_index) := by
    have h := extractDocsAux_pairwise ds.rows 0
    rw [show extractDocsAux 0 ds.rows = extractDocs ds.rows from rfl, hdocs] at h
    exact h
  rw [List.pairwise_cons] at hpw
  have h01 := hpw.1 d1 (by simp)
  have h02 := hpw.1 d2 (by simp)
  have h12 := (List.pairwise_cons.mp hpw.2).1 d2 (by simp)
  have hne : ∀ d ∈ ([d0, d1, d2] : List Doc), d.multihop_chunks ≠ [] := by
    intro d hd
    apply extractDocsAux_chunks_ne_nil ds.rows 0
    rw [show extractDocsAux 0 ds.rows = extractDocs ds.rows from rfl, hdocs]
    exact hd
  obtain ⟨hL, hM⟩ := sizesLoop_scenario d0 d1 d2 ⟨f seed, 0⟩ hne
  have hs01 : sortLe Nat.ble [d0.original_index, d1.original_index] =
      [d0.original_index, d1.original_index] := by
    apply sortLe_pairwise_eq
    refine List.Pairwise.cons ?_ (List.pairwise_singleton _ _)
    intro b hb
    simp only [List.mem_cons, List.not_mem_nil, or_false] at hb
    subst hb
    simpa using Nat.le_of_lt h01
  have hs02 : sortLe Nat.ble [d0.original_index, d2.original_index] =
      [d0.original_index, d2.original_index] := by
    apply sortLe_pairwise_eq
    refine List.Pairwise.cons ?_ (List.pairwise_singleton _ _)
    intro b hb
    simp only [List.mem_cons, List.not_mem_nil, or_false] at hb
    subst hb
    simpa using Nat.le_of_lt h02
  have hs12 : sortLe Nat.ble [d1.original_index, d2.original_index] =
      [d1.original_index, d2.original_index] := by
    apply sortLe_pairwise_eq
    refine List.Pairwise.cons ?_ (List.pairwise_singleton _ _)
    intro b hb
    simp only [List.mem_cons, List.not_mem_nil, or_false] at hb
    subst hb
    simpa using Nat.le_of_lt h12
  have hs012 : sortLe Nat.ble
      [d0.original_index, d1.original_index, d2.original_index] =
      [d0.original_index, d1.original_index, d2.original_index] := by
    apply sortLe_pairwise_eq
    refine List.Pairwise.cons ?_
      (List.Pairwise.cons ?_ (List.pairwise_singleton _ _))
    · intro b hb
      simp only [List.mem_cons, List.not_mem_nil, or_false] at hb
      rcases hb with rfl | rfl
      · simpa using Nat.le_of_lt h01
      · simpa using Nat.le_of_lt h02
    · intro b hb
      simp only [List.mem_cons, List.not_mem_nil, or_false] at hb
      subst hb
      simpa using Nat.le_of_lt h12
  rw [create_eq_checked ds ⟨10, 1, [2, 3], seed⟩ f 2 3 rfl]
  simp only [createChecked]
  rw [if_neg (by decide : ¬ ((2 : Int) < 2)), if_neg (by decide : ¬ ((3 : Int) < 2)),
    if_neg (by decide : ¬ ((1 : Int) < 1))]
  simp only [hcol, Bool.not_true, Bool.false_eq_true, if_false]
  rw [hdocs]
  rw [show ([d0, d1, d2] : List Doc).length = 3 from rfl]
  rw [if_neg (by decide : ¬ (((3 : Nat) : Int) < 2))]
  refine ⟨_, rfl, ?_, ?_, ?_⟩
  · show (sizesLoop [d0, d1, d2] 1 4 4 [2, 3] [] ⟨f seed, 0⟩).1.length = 4
    exact hL
  · show ((sizesLoop [d0, d1, d2] 1 4 4 [2, 3] [] ⟨f seed, 0⟩).1.map fun r =>
        r.cross_document_metadata.source_indices) = _
    rw [hM, hs01, hs02, hs12, hs012]
  · show (sizesLoop [d0, d1, d2] 1 4 4 [2, 3] [] ⟨f seed, 0⟩).1.Nodup
    refine List.Nodup.of_map (fun r => r.cross_document_metadata.source_indices) ?_
    rw [hM, hs01, hs02, hs12, hs012]
    simp only [List.nodup_cons, List.mem_cons, List.not_mem_nil, or_false,
      List.nodup_nil, and_true, not_or, List.cons.injEq, List.mem_singleton]
    have hnil : (([] : List Nat) = [d2.original_index]) = False := by simp
    rw [hnil]
    simp only [true_and, and_false, not_false_eq_true, and_true]
    omega

/-- Witness for C5 on a concrete three-document corpus. -/
theorem C5_three_docs_scenario_witness :
    ∃ out, create_cross_document_dataset dsABC ⟨10, 1, [2, 3], 42⟩ zeroStream = .ok out ∧
      out.length = 4 ∧
      (out.map fun r => r.cross_document_metadata.source_indices) =
        [[0, 1], [0, 2], [1, 2], [0, 1, 2]] ∧
      out.Nodup :=
  C5_three_docs_scenario dsABC zeroStream 42
    ⟨"A", 0, "sumA", [fixtureChunk]⟩ ⟨"B", 1, "sumB", [fixtureChunk]⟩
    ⟨"C", 2, "", [fixtureChunk]⟩ rfl (by decide)
